import Mathlib

/-!
Verification of the HyperCat commutativity-checking core.

This file gives a shallow embedding of the two verification engines of the
HyperCat repository and proves (or refutes) the specification claims about
them:

* `Rewrite` — the bounded subpath-rewriting search engine of
  `src/hypercat/diagram/commutativity_checker.py` (`CommutativityChecker._subs`
  and `CommutativityChecker.check`).  The very same loop body appears verbatim,
  specialised to integer symbols, in
  `src/hypercat/higher/finite/ncat.py` (`FiniteWeakNCategory._substitutions`
  and `FiniteWeakNCategory.certificate`), so the engine is embedded once,
  generically in the symbol type `α`, and instantiated at `String` for the
  diagram checker and at `Int` for the n-category variant.

* `NCat` — the dimension-indexed wrapper of
  `src/hypercat/higher/finite/ncat.py` (`FiniteWeakNCategory`).

* `Util` — the composition-based verifier of `src/util/diagrams_checker.py`
  (`Path`, `CommutativityChecker.check_paths_commute`,
  `check_triangle_commutes`, `check_square_commutes`).
-/

namespace Rewrite

/-- One certificate step `(relation_name, offset, direction)`, with direction
`"→"` (lhs → rhs) or `"←"` (rhs → lhs), as produced by `_subs` /
`_substitutions` in the Python source. -/
abbrev Step := String × Nat × String

/-- Certificate contents: the `steps` list of the Python `Certificate`
dataclass (`commutativity_checker.py`). -/
abbrev Cert := List Step

/-- A named bidirectional rewrite rule; embeds the `Relation` dataclass of
`commutativity_checker.py` (string symbols) and, via `NCat.toRel`, the
dimension-tagged `Relation` of `computad.py` (integer symbols). -/
structure Relation (α : Type) where
  lhs : List α
  rhs : List α
  name : String
deriving DecidableEq, Repr

variable {α : Type} [DecidableEq α]

/-- Result of one substitution: `path[:i] + rep + path[i+L:]` in the source. -/
def applyAt (path rep : List α) (i L : Nat) : List α :=
  path.take i ++ rep ++ path.drop (i + L)

/-- All substitutions of pattern `pat` by `rep` inside `path`, in offset order,
for one direction of one relation: the inner two loops of `_subs`
(`if L == 0 or L > n: continue` then `for i in range(0, n - L + 1)` with the
slice test `path[i:i+L] == pat`). -/
def subsOne (path pat rep : List α) (nm dir : String) : List (List α × Step) :=
  if pat.length = 0 ∨ path.length < pat.length then []
  else
    (List.range (path.length - pat.length + 1)).filterMap fun i =>
      if (path.drop i).take pat.length = pat then
        some (applyAt path rep i pat.length, (nm, i, dir))
      else none

/-- The full substitution generator `_subs(path)`: relations in registration
order, direction `"→"` (`lhs, rhs`) before `"←"` (`rhs, lhs`), offsets
ascending. -/
def subsList (rels : List (Relation α)) (path : List α) : List (List α × Step) :=
  rels.flatMap fun r =>
    subsOne path r.lhs r.rhs r.name "→" ++ subsOne path r.rhs r.lhs r.name "←"

/-- The body of `for newp, info in self._subs(path)` inside `check`: consume
the substitutions in order; on `newp == right` return the finished certificate
`cert + [info]`; otherwise skip seen paths and append unseen ones to the queue
together with their certificate prefix. -/
def procSubs (target : List α) (cert : Cert) :
    List (List α × Step) → List (List α × Cert) → List (List α) →
    Option Cert × List (List α × Cert) × List (List α)
  | [], q, seen => (none, q, seen)
  | (newp, info) :: rest, q, seen =>
    if newp = target then (some (cert ++ [info]), q, seen)
    else if newp ∈ seen then procSubs target cert rest q seen
    else procSubs target cert rest (q ++ [(newp, cert ++ [info])]) (newp :: seen)

/-- The `while q and steps < budget` loop of `check`, with the remaining
budget as fuel: an empty queue or exhausted budget yields `(False,
Certificate([]))`; otherwise one state is dequeued and its substitutions are
processed. -/
def bfs (rels : List (Relation α)) (target : List α) :
    Nat → List (List α × Cert) → List (List α) → Bool × Cert
  | _, [], _ => (false, [])
  | 0, _ :: _, _ => (false, [])
  | fuel + 1, (path, cert) :: q, seen =>
    let r := procSubs target cert (subsList rels path) q seen
    match r.1 with
    | some c => (true, c)
    | none => bfs rels target fuel r.2.1 r.2.2

/-- Embedding of `CommutativityChecker.check(diagram, budget)`: the reflexivity fast path
`if diagram.left == diagram.right: return True, Certificate([])`, then the
bounded BFS seeded with queue `[(left, [])]` and seen-set `{left}`. -/
def check (rels : List (Relation α)) (left right : List α) (budget : Nat) :
    Bool × Cert :=
  if left = right then (true, [])
  else bfs rels right budget [(left, [])] [left]

/-- Instrumented copy of `bfs` that additionally reports how many dequeues
(`steps` in the source) were performed; `bfsCount_fst` proves it computes the
same answer as `bfs`. -/
def bfsCount (rels : List (Relation α)) (target : List α) :
    Nat → List (List α × Cert) → List (List α) → Nat → (Bool × Cert) × Nat
  | _, [], _, steps => ((false, []), steps)
  | 0, _ :: _, _, steps => ((false, []), steps)
  | fuel + 1, (path, cert) :: q, seen, steps =>
    let r := procSubs target cert (subsList rels path) q seen
    match r.1 with
    | some c => ((true, c), steps + 1)
    | none => bfsCount rels target fuel r.2.1 r.2.2 (steps + 1)

/-- Instrumented copy of `check` reporting the number of BFS dequeues. -/
def checkCount (rels : List (Relation α)) (left right : List α) (budget : Nat) :
    (Bool × Cert) × Nat :=
  if left = right then ((true, []), 0)
  else bfsCount rels right budget [(left, [])] [left] 0

/-- Replay, as the specification describes it: look the step's relation up by
name in the registry. -/
def findRel (rels : List (Relation α)) (nm : String) : Option (Relation α) :=
  rels.find? fun r => r.name == nm

/-- Replay one certificate step `(nm, i, dir)` against `p`: resolve the
relation by name, orient its sides by the recorded direction, require the
pattern to occur at the recorded offset, and substitute the replacement
there. -/
def replayStep (rels : List (Relation α)) (p : List α) : Step → Option (List α)
  | (nm, i, dir) =>
    match findRel rels nm with
    | none => none
    | some r =>
      let pat := if dir = "→" then r.lhs else r.rhs
      let rep := if dir = "→" then r.rhs else r.lhs
      if pat ≠ [] ∧ i + pat.length ≤ p.length ∧ (p.drop i).take pat.length = pat
      then some (applyAt p rep i pat.length)
      else none

/-- Replay a whole certificate in order against a start path. -/
def replay (rels : List (Relation α)) : List α → Cert → Option (List α)
  | p, [] => some p
  | p, s :: rest =>
    match replayStep rels p s with
    | none => none
    | some p2 => replay rels p2 rest

/-- Invariant carried by the BFS queue: every queued state's certificate
prefix replays the start path to that state's path. -/
def QInv (rels : List (Relation α)) (left : List α) (q : List (List α × Cert)) : Prop :=
  ∀ x ∈ q, replay rels left x.2 = some x.1

end Rewrite

namespace NCat

/-- The `Relation` dataclass of `src/hypercat/higher/finite/computad.py`:
a named bidirectional rule over integer generator indices, tagged with the
dimension it lives at. -/
structure Relation where
  dim : Nat
  lhs : List Int
  rhs : List Int
  name : String
deriving DecidableEq, Repr

/-- Embedding of `FiniteWeakNCategory` from `src/hypercat/higher/finite/ncat.py`, restricted
to the fields its `certificate`/`add_relation` methods use.  The Python
`relations` dict (read through `dict.get(dim, [])`) is embedded as a total
function defaulting to `[]`; the `generators` registry is not consulted by
the search and is omitted. -/
structure FiniteWeakNCategory where
  n : Nat
  relations : Nat → List Relation

/-- Forget the dimension tag: the search loop of `_substitutions` reads only
`lhs`, `rhs` and `name`, exactly the fields of the generic engine's
relation. -/
def toRel (r : Relation) : Rewrite.Relation Int :=
  ⟨r.lhs, r.rhs, r.name⟩

/-- The relation list `self.relations.get(dim, [])` consulted by
`_substitutions(dim, path)`. -/
def relsAt (c : FiniteWeakNCategory) (dim : Nat) : List (Rewrite.Relation Int) :=
  (c.relations dim).map toRel

/-- Embedding of `add_relation(r)`: `assert 1 <= r.dim <= self.n` (embedded as `none` on
assertion failure), then append to that dimension's list and return the index
the relation was stored at. -/
def addRelation (c : FiniteWeakNCategory) (r : Relation) :
    Option (FiniteWeakNCategory × Nat) :=
  if 1 ≤ r.dim ∧ r.dim ≤ c.n then
    some
      ({ c with
          relations := fun d =>
            if d = r.dim then c.relations d ++ [r] else c.relations d },
        (c.relations r.dim).length)
  else none

/-- Embedding of `certificate(dim, lhs, rhs, budget)`: the same loop as
`CommutativityChecker.check` run over the relations of dimension `dim`, but
returning only the step list — `cert + [info]` on success and `[]` both on
the reflexive fast path (`if lhs == rhs: return []`) and on budget/frontier
exhaustion. -/
def certificate (c : FiniteWeakNCategory) (dim : Nat) (lhs rhs : List Int)
    (budget : Nat) : Rewrite.Cert :=
  if lhs = rhs then []
  else (Rewrite.bfs (relsAt c dim) rhs budget [(lhs, [])] [lhs]).2

/-- The verdict-carrying run of the generic engine on dimension `dim`'s
relations; `certificate` equals its second component (theorem
`certificate_no_verdict`). -/
def ncheck (c : FiniteWeakNCategory) (dim : Nat) (lhs rhs : List Int)
    (budget : Nat) : Bool × Rewrite.Cert :=
  Rewrite.check (relsAt c dim) lhs rhs budget

end NCat

namespace Util

/-- Embedding of `Object` from `src/core.py`: equality (`__eq__`/`__hash__`) is by `name`
alone, so the `data` payload is omitted. -/
structure Object where
  name : String
deriving DecidableEq, Repr

/-- Embedding of `Morphism` from `src/core.py`: equality is by `(name, source, target)`. -/
structure Morphism where
  name : String
  source : Object
  target : Object
deriving DecidableEq, Repr

/-- The category interface consumed by `util/diagrams_checker.py` (spec §6):
an enumerable morphism collection and a `compose(f, g)` lookup returning the
composite of `f` then `g`, or `None` when undefined. -/
structure Category where
  morphisms : List Morphism
  compose : Morphism → Morphism → Option Morphism

/-- Embedding of the `PathValidationResult` enum of `util/diagrams_checker.py`. -/
inductive PathValidationResult where
  | VALID
  | INVALID_COMPOSITION
  | BROKEN_CHAIN
  | EMPTY_PATH
  | IDENTITY_REQUIRED
deriving DecidableEq, Repr

/-- Embedding of `Path.is_composable`: each morphism's target matches the next one's
source (vacuously true for length ≤ 1). -/
def isComposable : List Morphism → Bool
  | [] => true
  | [_] => true
  | m1 :: m2 :: rest => m1.target = m2.source && isComposable (m2 :: rest)

/-- Embedding of `Path.validate(category)`: empty check, then membership of every morphism
in `category.morphisms`, then composability. -/
def validate (C : Category) (ms : List Morphism) : PathValidationResult :=
  if ms = [] then .EMPTY_PATH
  else if ms.all fun m => m ∈ C.morphisms then
    if isComposable ms then .VALID else .BROKEN_CHAIN
  else .INVALID_COMPOSITION

/-- The left-to-right fold of `Path.compose_in_category`: `result =
category.compose(result, morph)`, propagating `None`. -/
def composeList (C : Category) : Morphism → List Morphism → Option Morphism
  | acc, [] => some acc
  | acc, m :: ms =>
    match C.compose acc m with
    | none => none
    | some r => composeList C r ms

/-- Embedding of `Path.compose_in_category(category)`: `None` on the empty path, the single
morphism itself on length 1, otherwise the left-to-right fold. -/
def composeInCategory (C : Category) : List Morphism → Option Morphism
  | [] => none
  | m :: ms => composeList C m ms

/-- Embedding of `Path.source`: the first morphism's source, if any. -/
def pathSource (ms : List Morphism) : Option Object :=
  ms.head?.map Morphism.source

/-- Embedding of `Path.target`: the last morphism's target, if any. -/
def pathTarget (ms : List Morphism) : Option Object :=
  ms.getLast?.map Morphism.target

/-- The cache-free core of `check_paths_commute` (lines 231-238): endpoints
must agree, both composites must be defined, and the composites must be
equal. -/
def pathsCommuteCore (C : Category) (p1 p2 : List Morphism) : Bool :=
  if pathSource p1 ≠ pathSource p2 ∨ pathTarget p1 ≠ pathTarget p2 then false
  else
    match composeInCategory C p1, composeInCategory C p2 with
    | some a, some b => a = b
    | _, _ => false

/-- Embedding of `check_paths_commute(path1, path2, use_cache)`.  With `use_cache=True`
(the default) its first statement evaluates `cache_key in
self.commutativity_cache` where `cache_key = (path1, path2)`: hashing the
tuple hashes each `Path`, and the `Path` class of `util/diagrams_checker.py`
defines `__eq__` (line 116) without `__hash__`, so Python sets
`Path.__hash__ = None` and the lookup raises `TypeError: unhashable type:
'Path'`.  That exception is embedded as `Except.error`.  With
`use_cache=False` no cache is touched and the core comparison runs. -/
def checkPathsCommute (C : Category) (p1 p2 : List Morphism)
    (use_cache : Bool) : Except String Bool :=
  if use_cache then Except.error "unhashable type: Path"
  else Except.ok (pathsCommuteCore C p1 p2)

/-- Embedding of `CommutativityProof`, restricted to the fields the claims speak about
(`diagram_name`, `is_valid`, `failure_reason`); the `paths_checked` and
`proof_steps` logs are omitted. -/
structure CommutativityProof where
  diagram_name : String
  is_valid : Bool
  failure_reason : Option String
deriving DecidableEq, Repr

/-- Embedding of `CommutativeTriangle`: vertices `(A, B, C)`, edges `(f: A→B, g: B→C,
h: A→C)` and a name.  Note the dataclass never checks that the edges connect
the stated vertices. -/
structure CommutativeTriangle where
  vertices : Object × Object × Object
  edges : Morphism × Morphism × Morphism
  name : String

/-- Embedding of `CommutativeSquare`: vertices `(TL, TR, BL, BR)`, edges `(top, right,
left, bottom)` and a name. -/
structure CommutativeSquare where
  vertices : Object × Object × Object × Object
  edges : Morphism × Morphism × Morphism × Morphism
  name : String

/-- Embedding of `check_triangle_commutes(triangle)`: builds `path1 = [f, g]` (named
`path_{f.name}_{g.name}`) and `path2 = [h]` (named `path_{h.name}`), returns
a failed proof if either path fails validation, and otherwise calls
`check_paths_commute` with the cache enabled — which raises (see
`checkPathsCommute`). -/
def checkTriangleCommutes (C : Category) (t : CommutativeTriangle) :
    Except String CommutativityProof :=
  let f := t.edges.1
  let g := t.edges.2.1
  let h := t.edges.2.2
  let p1 := [f, g]
  let p2 := [h]
  let p1name := "path_" ++ f.name ++ "_" ++ g.name
  let p2name := "path_" ++ h.name
  if validate C p1 ≠ .VALID then
    .ok ⟨t.name, false, some ("Invalid path: " ++ p1name)⟩
  else if validate C p2 ≠ .VALID then
    .ok ⟨t.name, false, some ("Invalid path: " ++ p2name)⟩
  else
    (checkPathsCommute C p1 p2 true).map fun commutes =>
      ⟨t.name, commutes,
        if commutes then none else some "Paths do not compose to same morphism"⟩

/-- Embedding of `check_square_commutes(square)`: builds `path1 = [top, right]` and
`path2 = [left, bottom]`, collects the validation error messages of both
paths, returns a failed proof if any, and otherwise calls
`check_paths_commute` with the cache enabled — which raises. -/
def checkSquareCommutes (C : Category) (s : CommutativeSquare) :
    Except String CommutativityProof :=
  let top := s.edges.1
  let right := s.edges.2.1
  let left := s.edges.2.2.1
  let bottom := s.edges.2.2.2
  let p1 := [top, right]
  let p2 := [left, bottom]
  let p1name := "path_" ++ top.name ++ "_" ++ right.name
  let p2name := "path_" ++ left.name ++ "_" ++ bottom.name
  let errs :=
    (if validate C p1 ≠ .VALID then ["Path " ++ p1name ++ " is invalid"] else []) ++
    (if validate C p2 ≠ .VALID then ["Path " ++ p2name ++ " is invalid"] else [])
  if errs ≠ [] then
    .ok ⟨s.name, false, some (String.intercalate "; " errs)⟩
  else
    (checkPathsCommute C p1 p2 true).map fun commutes =>
      ⟨s.name, commutes,
        if commutes then none else some "Square does not commute"⟩

end Util

/-! Concrete instances used by the witness and counterexample theorems. -/

/-- The spec's concrete scenario 1 relation `swap : ("a","b") ↔ ("b","a")`. -/
def swapRel : Rewrite.Relation String :=
  ⟨["a", "b"], ["b", "a"], "swap"⟩

/-- A finite weak 1-category with no relations. -/
def fw0 : NCat.FiniteWeakNCategory :=
  ⟨1, fun _ => []⟩

/-- A dimension-1 relation with an empty left-hand side. -/
def rEmptyLhs : NCat.Relation :=
  ⟨1, [], [5], "e"⟩

/-- A well-formed dimension-1 relation. -/
def rGood : NCat.Relation :=
  ⟨1, [0], [1], "r"⟩

/-- A finite weak 1-category whose only relation rewrites `0 ↔ 2`, so the
path `[1]` is unreachable from `[0]`. -/
def fwEx : NCat.FiniteWeakNCategory :=
  ⟨1, fun d => if d = 1 then [⟨1, [0], [2], "r"⟩] else []⟩

def objA : Util.Object := ⟨"A"⟩
def objB : Util.Object := ⟨"B"⟩
def objC : Util.Object := ⟨"C"⟩
def objA2 : Util.Object := ⟨"A2"⟩

def mf : Util.Morphism := ⟨"f", objA, objB⟩
def mg : Util.Morphism := ⟨"g", objB, objC⟩
def mh : Util.Morphism := ⟨"h", objA, objC⟩

/-- A morphism into `C` that starts at `A2`, not at the vertex `A` a triangle
will claim. -/
def mh2 : Util.Morphism := ⟨"h2", objA2, objC⟩

/-- A morphism with triangle-compatible endpoints that is not registered in
`catEx.morphisms`. -/
def mhX : Util.Morphism := ⟨"hx", objA, objC⟩

/-- A concrete category: `f : A→B`, `g : B→C`, `h : A→C`, `h2 : A2→C`, with
`compose(f, g) = h` the only defined composite. -/
def catEx : Util.Category :=
  ⟨[mf, mg, mh, mh2], fun x y => if x = mf ∧ y = mg then some mh else none⟩

/-- The triangle `(A, B, C)` with edges `(f, g, h)` — well-formed and
commuting in `catEx`. -/
def triEx : Util.CommutativeTriangle :=
  ⟨(objA, objB, objC), (mf, mg, mh), "tri"⟩

/-- A triangle whose stated vertices `(A, B, C)` are not connected by its
edges: the third edge `h2` starts at `A2`, yet both of its paths pass
validation. -/
def triMis : Util.CommutativeTriangle :=
  ⟨(objA, objB, objC), (mf, mg, mh2), "tri_mis"⟩

namespace Rewrite

lemma subsOne_nil {α : Type} [DecidableEq α] (pat rep : List α) (nm dir : String) :
    subsOne ([] : List α) pat rep nm dir = [] := by
  unfold subsOne
  rw [if_pos]
  rcases pat with _ | ⟨a, t⟩
  · exact Or.inl rfl
  · exact Or.inr (by simp)

lemma subsList_nil {α : Type} [DecidableEq α] (rels : List (Relation α)) :
    subsList rels ([] : List α) = [] := by
  unfold subsList
  induction rels with
  | nil => rfl
  | cons r t ih => simp [List.flatMap_cons, subsOne_nil, ih]

lemma subsOne_self {α : Type} [DecidableEq α] {path : List α} (rep : List α) (nm dir : String)
    (h : path ≠ []) :
    subsOne path path rep nm dir = [(rep, (nm, 0, dir))] := by
  unfold subsOne
  rw [if_neg]
  · have : path.length - path.length + 1 = 1 := by omega
    rw [this, show List.range 1 = [0] from rfl]
    simp [applyAt, List.drop_length]
  · push_neg
    exact ⟨fun hl => h (List.length_eq_zero.mp hl), le_refl _⟩

lemma subsOne_sound {α : Type} [DecidableEq α] {path pat rep : List α} {nm dir : String} {x : List α × Step}
    (hx : x ∈ subsOne path pat rep nm dir) :
    ∃ i, x = (applyAt path rep i pat.length, (nm, i, dir)) ∧
      pat ≠ [] ∧ i + pat.length ≤ path.length ∧
      (path.drop i).take pat.length = pat := by
  unfold subsOne at hx
  split at hx
  · simp at hx
  · rename_i hcond
    push_neg at hcond
    obtain ⟨hL0, hLn⟩ := hcond
    rcases List.mem_filterMap.mp hx with ⟨i, hi, hfi⟩
    rw [List.mem_range] at hi
    split at hfi
    · rename_i hmatch
      refine ⟨i, (Option.some.inj hfi).symm, fun hp => hL0 (by simp [hp]), by omega, hmatch⟩
    · simp at hfi

lemma findRel_self {α : Type} {rels : List (Relation α)} {r : Relation α}
    (hnd : (rels.map Relation.name).Nodup) (hr : r ∈ rels) :
    findRel rels r.name = some r := by
  induction rels with
  | nil => simp at hr
  | cons a t ih =>
    rw [List.map_cons, List.nodup_cons] at hnd
    rcases List.mem_cons.mp hr with h | h
    · subst h
      simp [findRel]
    · have hne : (a.name == r.name) = false := by
        refine beq_eq_false_iff_ne.mpr fun he => hnd.1 ?_
        rw [he]
        exact List.mem_map_of_mem _ h
      unfold findRel
      rw [List.find?_cons, hne]
      exact ih hnd.2 h

end Rewrite

namespace Rewrite

lemma subsList_sound {α : Type} [DecidableEq α] {rels : List (Relation α)} {p : List α}
    (hnd : (rels.map Relation.name).Nodup) {x : List α × Step}
    (hx : x ∈ subsList rels p) : replayStep rels p x.2 = some x.1 := by
  rcases List.mem_flatMap.mp hx with ⟨r, hr, hx2⟩
  have hfind := findRel_self hnd hr
  rcases List.mem_append.mp hx2 with h | h
  · rcases subsOne_sound h with ⟨i, hxeq, hpat, hle, hm⟩
    subst hxeq
    simp only [replayStep, hfind, if_true, if_false]
    rw [if_pos ⟨hpat, hle, hm⟩]
  · rcases subsOne_sound h with ⟨i, hxeq, hpat, hle, hm⟩
    subst hxeq
    simp only [replayStep, hfind, if_true, if_false]
    rw [if_pos ⟨hpat, hle, hm⟩]
    rw [if_neg (show ¬("←" : String) = "→" by decide),
      if_neg (show ¬("←" : String) = "→" by decide)]

lemma replay_append {α : Type} [DecidableEq α] (rels : List (Relation α))
    (p : List α) (c1 c2 : Cert) :
    replay rels p (c1 ++ c2) =
      match replay rels p c1 with
      | none => none
      | some q => replay rels q c2 := by
  induction c1 generalizing p with
  | nil => simp [replay]
  | cons s t ih =>
    simp only [List.cons_append, replay]
    cases replayStep rels p s with
    | none => rfl
    | some p2 => exact ih p2

lemma procSubs_sound {α : Type} [DecidableEq α] {rels : List (Relation α)}
    {left p : List α} (target : List α) {cert : Cert}
    (hp : replay rels left cert = some p) :
    ∀ subs q seen, (∀ x ∈ subs, replayStep rels p x.2 = some x.1) →
      QInv rels left q →
      (∀ c, (procSubs target cert subs q seen).1 = some c →
        replay rels left c = some target ∧ c ≠ []) ∧
      QInv rels left (procSubs target cert subs q seen).2.1 := by
  intro subs
  induction subs generalizing cert with
  | nil =>
    intro q seen _ hq
    exact ⟨fun c hc => by simp [procSubs] at hc, by simpa [procSubs] using hq⟩
  | cons x rest ih =>
    rcases x with ⟨newp, info⟩
    intro q seen hsubs hq
    have hstep : replayStep rels p info = some newp := hsubs _ (List.mem_cons_self _ _)
    have hrest : ∀ y ∈ rest, replayStep rels p y.2 = some y.1 :=
      fun y hy => hsubs y (List.mem_cons_of_mem _ hy)
    have hext : replay rels left (cert ++ [info]) = some newp := by
      rw [replay_append, hp]
      simp [replay, hstep]
    by_cases ht : newp = target
    · constructor
      · intro c hc
        have hc2 : (some (cert ++ [info]) : Option Cert) = some c := by
          simpa [procSubs, ht] using hc
        obtain rfl := Option.some.inj hc2
        exact ⟨ht ▸ hext, by simp⟩
      · have : (procSubs target cert ((newp, info) :: rest) q seen).2.1 = q := by
          simp [procSubs, ht]
        rw [this]
        exact hq
    · by_cases hs : newp ∈ seen
      · have := ih hp q seen hrest hq
        simpa [procSubs, ht, hs] using this
      · have hq2 : QInv rels left (q ++ [(newp, cert ++ [info])]) := by
          intro y hy
          rcases List.mem_append.mp hy with h | h
          · exact hq y h
          · simp only [List.mem_singleton] at h
            subst h
            exact hext
        have := ih hp (q ++ [(newp, cert ++ [info])]) (newp :: seen) hrest hq2
        simpa [procSubs, ht, hs] using this

end Rewrite

namespace Rewrite

lemma bfs_step_some {α : Type} [DecidableEq α] {rels : List (Relation α)}
    {target p : List α} {cert : Cert} {c : Cert} {q q2 : List (List α × Cert)}
    {seen s2 : List (List α)} {n : Nat}
    (h : procSubs target cert (subsList rels p) q seen = (some c, q2, s2)) :
    bfs rels target (n + 1) ((p, cert) :: q) seen = (true, c) := by
  simp [bfs, h]

lemma bfs_step_none {α : Type} [DecidableEq α] {rels : List (Relation α)}
    {target p : List α} {cert : Cert} {q q2 : List (List α × Cert)}
    {seen s2 : List (List α)} {n : Nat}
    (h : procSubs target cert (subsList rels p) q seen = (none, q2, s2)) :
    bfs rels target (n + 1) ((p, cert) :: q) seen = bfs rels target n q2 s2 := by
  simp [bfs, h]

lemma bfs_sound {α : Type} [DecidableEq α] {rels : List (Relation α)}
    {left target : List α} (hnd : (rels.map Relation.name).Nodup) :
    ∀ fuel q seen, QInv rels left q →
      (bfs rels target fuel q seen).1 = true →
      replay rels left (bfs rels target fuel q seen).2 = some target ∧
        (bfs rels target fuel q seen).2 ≠ [] := by
  intro fuel
  induction fuel with
  | zero =>
    intro q seen _ hb
    rcases q with _ | ⟨⟨p, cert⟩, q⟩ <;> simp [bfs] at hb
  | succ n ih =>
    intro q seen hq hb
    rcases q with _ | ⟨⟨p, cert⟩, q⟩
    · simp [bfs] at hb
    · have hp : replay rels left cert = some p := hq _ (List.mem_cons_self _ _)
      have hq2 : QInv rels left q := fun y hy => hq y (List.mem_cons_of_mem _ hy)
      have hps := procSubs_sound target hp (subsList rels p) q seen
        (fun x hx => subsList_sound hnd hx) hq2
      rcases hr : procSubs target cert (subsList rels p) q seen with ⟨o, qq, ss⟩
      rcases o with _ | c
      · rw [bfs_step_none hr] at hb ⊢
        have hq3 : QInv rels left qq := by
          have := hps.2
          rw [hr] at this
          exact this
        exact ih qq ss hq3 hb
      · rw [bfs_step_some hr]
        refine hps.1 c ?_
        rw [hr]

lemma bfs_mono {α : Type} [DecidableEq α] {rels : List (Relation α)}
    {target : List α} :
    ∀ n m q seen c, n ≤ m → bfs rels target n q seen = (true, c) →
      bfs rels target m q seen = (true, c) := by
  intro n
  induction n with
  | zero =>
    intro m q seen c _ hb
    rcases q with _ | ⟨⟨p, cert⟩, q⟩ <;> simp [bfs] at hb
  | succ n ih =>
    intro m q seen c hnm hb
    rcases q with _ | ⟨⟨p, cert⟩, q⟩
    · simp [bfs] at hb
    · obtain ⟨m2, rfl⟩ : ∃ m2, m = m2 + 1 := ⟨m - 1, by omega⟩
      rcases hr : procSubs target cert (subsList rels p) q seen with ⟨o, qq, ss⟩
      rcases o with _ | c2
      · rw [bfs_step_none hr] at hb
        rw [bfs_step_none hr]
        exact ih m2 qq ss c (by omega) hb
      · rw [bfs_step_some hr] at hb
        rw [bfs_step_some hr]
        exact hb

lemma bfs_false_nil {α : Type} [DecidableEq α] {rels : List (Relation α)}
    {target : List α} :
    ∀ fuel q seen, (bfs rels target fuel q seen).1 = false →
      (bfs rels target fuel q seen).2 = [] := by
  intro fuel
  induction fuel with
  | zero => intro q seen _; rcases q with _ | ⟨⟨p, cert⟩, q⟩ <;> simp [bfs]
  | succ n ih =>
    intro q seen hb
    rcases q with _ | ⟨⟨p, cert⟩, q⟩
    · simp [bfs]
    · rcases hr : procSubs target cert (subsList rels p) q seen with ⟨o, qq, ss⟩
      rcases o with _ | c2
      · rw [bfs_step_none hr] at hb ⊢
        exact ih qq ss hb
      · rw [bfs_step_some hr] at hb
        simp at hb

lemma bfsCount_fst {α : Type} [DecidableEq α] {rels : List (Relation α)}
    {target : List α} :
    ∀ fuel q seen s, (bfsCount rels target fuel q seen s).1 =
      bfs rels target fuel q seen := by
  intro fuel
  induction fuel with
  | zero => intro q seen s; rcases q with _ | ⟨⟨p, cert⟩, q⟩ <;> simp [bfs, bfsCount]
  | succ n ih =>
    intro q seen s
    rcases q with _ | ⟨⟨p, cert⟩, q⟩
    · simp [bfs, bfsCount]
    · rcases hr : procSubs target cert (subsList rels p) q seen with ⟨o, qq, ss⟩
      rcases o with _ | c2
      · simp only [bfs, bfsCount, hr]
        exact ih qq ss (s + 1)
      · simp [bfs, bfsCount, hr]

end Rewrite

/-- C2: for every relation list, every path `p` and every budget, the engine
returns `(true, [])` on equal endpoints via the reflexivity fast path, before
any relation or budget is consulted. -/
theorem check_reflexivity (rels : List (Rewrite.Relation String)) (p : List String)
    (budget : Nat) : Rewrite.check rels p p budget = (true, []) := by
  simp [Rewrite.check]

/-- C9: with budget 0 and distinct paths the loop guard `steps < budget`
fails before the first dequeue, so the result is `(false, [])`. -/
theorem check_budget_zero (rels : List (Rewrite.Relation String)) (p q : List String)
    (h : p ≠ q) : Rewrite.check rels p q 0 = (false, []) := by
  unfold Rewrite.check
  rw [if_neg h]
  simp [Rewrite.bfs]

theorem check_budget_zero_witness :
    (["a"] : List String) ≠ ["b"] ∧ Rewrite.check [swapRel] ["a"] ["b"] 0 = (false, []) :=
  ⟨by decide, check_budget_zero [swapRel] ["a"] ["b"] (by decide)⟩

/-- C3: enlarging the budget preserves a successful verdict. -/
theorem check_budget_mono (rels : List (Rewrite.Relation String)) (a b : List String)
    (N M : Nat) (hNM : N ≤ M) (h : (Rewrite.check rels a b N).1 = true) :
    (Rewrite.check rels a b M).1 = true := by
  by_cases hab : a = b
  · simp [Rewrite.check, hab]
  · unfold Rewrite.check at h ⊢
    rw [if_neg hab] at h ⊢
    rcases he : Rewrite.bfs rels b N [(a, [])] [a] with ⟨bb, cc⟩
    rw [he] at h
    simp at h
    subst h
    rw [Rewrite.bfs_mono N M _ _ _ hNM he]

theorem check_budget_mono_witness :
    (1 ≤ 2 ∧ (Rewrite.check [swapRel] ["a", "b"] ["b", "a"] 1).1 = true) ∧
    (Rewrite.check [swapRel] ["a", "b"] ["b", "a"] 2).1 = true :=
  ⟨⟨by decide, by decide⟩,
    check_budget_mono [swapRel] ["a", "b"] ["b", "a"] 1 2 (by decide) (by decide)⟩

/-- C1 counterexample: with two registered relations sharing the name `"r"`,
the search succeeds using the second one, but replaying the certificate looks
the name up and finds the first one, so replay does not reproduce the end
path. -/
theorem check_replay_counterexample :
    (Rewrite.check [(⟨["a"], ["b"], "r"⟩ : Rewrite.Relation String), ⟨["a"], ["c"], "r"⟩]
      ["a"] ["c"] 64).1 = true ∧
    Rewrite.replay [(⟨["a"], ["b"], "r"⟩ : Rewrite.Relation String), ⟨["a"], ["c"], "r"⟩]
      ["a"]
      (Rewrite.check [(⟨["a"], ["b"], "r"⟩ : Rewrite.Relation String), ⟨["a"], ["c"], "r"⟩]
        ["a"] ["c"] 64).2 ≠ some ["c"] := by
  decide

/-- C1 amended: when registered relation names are pairwise distinct, a
successful check yields a certificate that replays the start path to the end
path, and a successful empty certificate forces equal endpoints. -/
theorem check_replay (rels : List (Rewrite.Relation String))
    (hnd : (rels.map Rewrite.Relation.name).Nodup) (left right : List String)
    (budget : Nat) (h : (Rewrite.check rels left right budget).1 = true) :
    Rewrite.replay rels left (Rewrite.check rels left right budget).2 = some right ∧
      ((Rewrite.check rels left right budget).2 = [] → left = right) := by
  by_cases hab : left = right
  · subst hab
    simp [Rewrite.check, Rewrite.replay]
  · have hq : Rewrite.QInv rels left [(left, [])] := by
      intro x hx
      simp only [List.mem_singleton] at hx
      subst hx
      rfl
    unfold Rewrite.check at h ⊢
    rw [if_neg hab] at h ⊢
    have hs := Rewrite.bfs_sound hnd budget [(left, [])] [left] hq h
    exact ⟨hs.1, fun hnil => absurd hnil hs.2⟩

theorem check_replay_witness :
    (([swapRel].map Rewrite.Relation.name).Nodup ∧
      (Rewrite.check [swapRel] ["a", "b"] ["b", "a"] 64).1 = true) ∧
    (Rewrite.replay [swapRel] ["a", "b"]
        (Rewrite.check [swapRel] ["a", "b"] ["b", "a"] 64).2 = some ["b", "a"] ∧
      ((Rewrite.check [swapRel] ["a", "b"] ["b", "a"] 64).2 = [] → ["a", "b"] = ["b", "a"])) :=
  ⟨⟨by decide, by decide⟩,
    check_replay [swapRel] (by decide) ["a", "b"] ["b", "a"] 64 (by decide)⟩

/-- C4 counterexample: three registered relations for which
`check(lhs, rhs, 64)` is not `(true, [(name, 0, "→")])`: an identity-sided
relation (the reflexivity fast path returns `(true, [])`), a relation whose
rewrite is shadowed by an earlier relation with the same sides (the earlier
name is certified), and a relation with an empty `lhs` (empty patterns are
skipped, so the search fails). -/
theorem relation_soundness_counterexample :
    Rewrite.check [(⟨["a"], ["a"], "id"⟩ : Rewrite.Relation String)] ["a"] ["a"] 64 ≠
      (true, [("id", 0, "→")]) ∧
    Rewrite.check [(⟨["a"], ["b"], "r1"⟩ : Rewrite.Relation String), ⟨["a"], ["b"], "r2"⟩]
      ["a"] ["b"] 64 ≠ (true, [("r2", 0, "→")]) ∧
    Rewrite.check [(⟨[], ["a"], "e"⟩ : Rewrite.Relation String)] [] ["a"] 64 ≠
      (true, [("e", 0, "→")]) := by
  decide

/-- C4 amended: for the first registered relation, when its `lhs` is nonempty
and differs from its `rhs`, `check(lhs, rhs, budget ≥ 1)` certifies exactly
the single forward application at offset 0. -/
theorem relation_soundness_first (r : Rewrite.Relation String)
    (rest : List (Rewrite.Relation String)) (budget : Nat) (hb : 1 ≤ budget)
    (h0 : r.lhs ≠ []) (hne : r.lhs ≠ r.rhs) :
    Rewrite.check (r :: rest) r.lhs r.rhs budget = (true, [(r.name, 0, "→")]) := by
  obtain ⟨k, rfl⟩ : ∃ k, budget = k + 1 := ⟨budget - 1, by omega⟩
  unfold Rewrite.check
  rw [if_neg hne]
  have hsubs : Rewrite.subsList (r :: rest) r.lhs =
      (r.rhs, (r.name, 0, "→")) ::
        (Rewrite.subsOne r.lhs r.rhs r.lhs r.name "←" ++ Rewrite.subsList rest r.lhs) := by
    simp [Rewrite.subsList, Rewrite.subsOne_self _ _ _ h0]
  have hproc : Rewrite.procSubs r.rhs [] (Rewrite.subsList (r :: rest) r.lhs) [] [r.lhs] =
      (some [(r.name, 0, "→")], [], [r.lhs]) := by
    rw [hsubs]
    simp [Rewrite.procSubs]
  rw [Rewrite.bfs_step_some hproc]

theorem relation_soundness_first_witness :
    (1 ≤ 64 ∧ swapRel.lhs ≠ [] ∧ swapRel.lhs ≠ swapRel.rhs) ∧
    Rewrite.check [swapRel] swapRel.lhs swapRel.rhs 64 =
      (true, [(swapRel.name, 0, "→")]) :=
  ⟨⟨by decide, by decide, by decide⟩,
    relation_soundness_first swapRel [] 64 (by decide) (by decide) (by decide)⟩

/-- C8 counterexample: empty paths are not rejected at entry.  With an empty
start path the instrumented engine performs one BFS dequeue (so the loop is
entered) and returns an ordinary `(false, [])`; with an empty end path the
search can even succeed, via a relation with an empty side. -/
theorem check_empty_path_counterexample :
    Rewrite.checkCount [(⟨["a"], ["b"], "r"⟩ : Rewrite.Relation String)] [] ["a"] 5 =
      ((false, []), 1) ∧
    Rewrite.check [(⟨["a"], [], "del"⟩ : Rewrite.Relation String)] ["a"] [] 5 =
      (true, [("del", 0, "→")]) := by
  decide

/-- C8 amended: `check` performs no emptiness validation; an empty start path
flows through the ordinary search, which dequeues it (once, when the budget
allows), finds no substitution (no nonempty pattern fits the empty path, and
empty patterns are skipped), and returns `(false, [])`. -/
theorem check_empty_start (rels : List (Rewrite.Relation String)) (right : List String)
    (budget : Nat) (h : right ≠ []) :
    Rewrite.check rels [] right budget = (false, []) ∧
    (1 ≤ budget → Rewrite.checkCount rels [] right budget = ((false, []), 1)) := by
  have hne : ([] : List String) ≠ right := fun he => h he.symm
  have hproc : Rewrite.procSubs right [] (Rewrite.subsList rels ([] : List String)) [] [[]] =
      (none, [], [[]]) := by
    rw [Rewrite.subsList_nil]
    simp [Rewrite.procSubs]
  constructor
  · unfold Rewrite.check
    rw [if_neg hne]
    cases budget with
    | zero => simp [Rewrite.bfs]
    | succ k =>
      rw [Rewrite.bfs_step_none hproc]
      cases k <;> simp [Rewrite.bfs]
  · intro hb
    obtain ⟨k, rfl⟩ : ∃ k, budget = k + 1 := ⟨budget - 1, by omega⟩
    unfold Rewrite.checkCount
    rw [if_neg hne]
    simp only [Rewrite.bfsCount, hproc]

theorem check_empty_start_witness :
    ((["a"] : List String) ≠ [] ∧ 1 ≤ 5) ∧
    (Rewrite.check [swapRel] [] ["a"] 5 = (false, []) ∧
      (1 ≤ 5 → Rewrite.checkCount [swapRel] [] ["a"] 5 = ((false, []), 1))) :=
  ⟨⟨by decide, by decide⟩, check_empty_start [swapRel] ["a"] 5 (by decide)⟩

namespace Util

lemma validate_valid_pair (C : Category) (f g : Morphism)
    (hf : f ∈ C.morphisms) (hg : g ∈ C.morphisms) (hfg : f.target = g.source) :
    validate C [f, g] = .VALID := by
  simp [validate, isComposable, hf, hg, hfg]

lemma validate_valid_single (C : Category) (h : Morphism)
    (hh : h ∈ C.morphisms) : validate C [h] = .VALID := by
  simp [validate, isComposable, hh]

lemma validate_pair_ne (C : Category) (f g : Morphism)
    (hfg : f.target ≠ g.source) : validate C [f, g] ≠ .VALID := by
  unfold validate
  rw [if_neg (by simp)]
  by_cases hm : ([f, g].all fun m => m ∈ C.morphisms) = true
  · rw [if_pos hm, if_neg (by simp [isComposable, hfg])]
    simp
  · rw [if_neg hm]
    simp

lemma validate_not_mem_ne (C : Category) (ms : List Morphism) (m : Morphism)
    (hm : m ∈ ms) (hnot : m ∉ C.morphisms) : validate C ms ≠ .VALID := by
  unfold validate
  rw [if_neg (by rintro rfl; simp at hm)]
  rw [if_neg (by simp only [List.all_eq_true, decide_eq_true_eq]; push_neg; exact ⟨m, hm, hnot⟩)]
  simp

lemma checkTriangle_error_of_valid (C : Category) (t : CommutativeTriangle)
    (h1 : validate C [t.edges.1, t.edges.2.1] = .VALID)
    (h2 : validate C [t.edges.2.2] = .VALID) :
    checkTriangleCommutes C t = .error "unhashable type: Path" := by
  simp only [checkTriangleCommutes]
  rw [if_neg (by simp [h1]), if_neg (by simp [h2])]
  rfl

lemma checkSquare_error_of_valid (C : Category) (s : CommutativeSquare)
    (h1 : validate C [s.edges.1, s.edges.2.1] = .VALID)
    (h2 : validate C [s.edges.2.2.1, s.edges.2.2.2] = .VALID) :
    checkSquareCommutes C s = .error "unhashable type: Path" := by
  simp only [checkSquareCommutes]
  rw [if_neg (not_not.mpr h1), if_neg (not_not.mpr h2), if_neg (by simp)]
  rfl

lemma checkTriangle_invalid (C : Category) (t : CommutativeTriangle)
    (h : validate C [t.edges.1, t.edges.2.1] ≠ .VALID ∨
      validate C [t.edges.2.2] ≠ .VALID) :
    ∃ p : CommutativityProof, checkTriangleCommutes C t = .ok p ∧
      p.is_valid = false ∧ p.failure_reason.isSome = true := by
  by_cases hv1 : validate C [t.edges.1, t.edges.2.1] = .VALID
  · rcases h with h | h
    · exact absurd hv1 h
    · simp only [checkTriangleCommutes]
      rw [if_neg (not_not.mpr hv1), if_pos h]
      exact ⟨_, rfl, rfl, rfl⟩
  · simp only [checkTriangleCommutes]
    rw [if_pos hv1]
    exact ⟨_, rfl, rfl, rfl⟩

end Util

namespace Util

lemma checkSquare_invalid (C : Category) (s : CommutativeSquare)
    (h : validate C [s.edges.1, s.edges.2.1] ≠ .VALID ∨
      validate C [s.edges.2.2.1, s.edges.2.2.2] ≠ .VALID) :
    ∃ p : CommutativityProof, checkSquareCommutes C s = .ok p ∧
      p.is_valid = false ∧ p.failure_reason.isSome = true := by
  by_cases hv1 : validate C [s.edges.1, s.edges.2.1] = .VALID <;>
    by_cases hv2 : validate C [s.edges.2.2.1, s.edges.2.2.2] = .VALID
  · rcases h with h | h
    · exact absurd hv1 h
    · exact absurd hv2 h
  · simp only [checkSquareCommutes]
    rw [if_neg (not_not.mpr hv1), if_pos hv2, if_pos (by simp)]
    exact ⟨_, rfl, rfl, rfl⟩
  · simp only [checkSquareCommutes]
    rw [if_pos hv1, if_neg (not_not.mpr hv2), if_pos (by simp)]
    exact ⟨_, rfl, rfl, rfl⟩
  · simp only [checkSquareCommutes]
    rw [if_pos hv1, if_pos hv2, if_pos (by simp)]
    exact ⟨_, rfl, rfl, rfl⟩

end Util

/-- C5 (code bug): for a well-typed triangle whose morphisms belong to the
category, both paths pass validation and `check_triangle_commutes` reaches
`check_paths_commute(use_cache=True)`, whose cache lookup hashes the
unhashable `Path` and raises `TypeError` — it never returns a proof object.
The second conjunct shows the claim is right about the intended comparison:
the cache-free core of `check_paths_commute` returns `True` exactly when the
category's composition lookup gives `compose(f, g) == h`. -/
theorem check_triangle_typeerror (C : Util.Category) (A B Co : Util.Object)
    (f g h : Util.Morphism) (nm : String)
    (hf : f ∈ C.morphisms) (hg : g ∈ C.morphisms) (hh : h ∈ C.morphisms)
    (hfs : f.source = A) (hft : f.target = B) (hgs : g.source = B)
    (hgt : g.target = Co) (hhs : h.source = A) (hht : h.target = Co) :
    Util.checkTriangleCommutes C ⟨(A, B, Co), (f, g, h), nm⟩ =
      .error "unhashable type: Path" ∧
    (Util.pathsCommuteCore C [f, g] [h] = true ↔ C.compose f g = some h) := by
  constructor
  · exact Util.checkTriangle_error_of_valid C ⟨(A, B, Co), (f, g, h), nm⟩
      (Util.validate_valid_pair C f g hf hg (by rw [hft, hgs]))
      (Util.validate_valid_single C h hh)
  · have hend : ¬(Util.pathSource [f, g] ≠ Util.pathSource [h] ∨
        Util.pathTarget [f, g] ≠ Util.pathTarget [h]) := by
      push_neg
      exact ⟨by simp [Util.pathSource, hfs, hhs],
        by simp [Util.pathTarget, hgt, hht]⟩
    unfold Util.pathsCommuteCore
    rw [if_neg hend]
    have h1 : Util.composeInCategory C [f, g] = C.compose f g := by
      unfold Util.composeInCategory Util.composeList
      cases C.compose f g <;> simp [Util.composeList]
    have h2 : Util.composeInCategory C [h] = some h := rfl
    rw [h1, h2]
    cases hc : C.compose f g with
    | none => simp
    | some r => simp

theorem check_triangle_typeerror_witness :
    (mf ∈ catEx.morphisms ∧ mg ∈ catEx.morphisms ∧ mh ∈ catEx.morphisms ∧
      mf.source = objA ∧ mf.target = objB ∧ mg.source = objB ∧
      mg.target = objC ∧ mh.source = objA ∧ mh.target = objC) ∧
    (Util.checkTriangleCommutes catEx ⟨(objA, objB, objC), (mf, mg, mh), "tri"⟩ =
        .error "unhashable type: Path" ∧
      (Util.pathsCommuteCore catEx [mf, mg] [mh] = true ↔
        catEx.compose mf mg = some mh)) :=
  ⟨⟨by decide, by decide, by decide, rfl, rfl, rfl, rfl, rfl, rfl⟩,
    check_triangle_typeerror catEx objA objB objC mf mg mh "tri"
      (by decide) (by decide) (by decide) rfl rfl rfl rfl rfl rfl⟩

/-- C6 counterexample: a triangle whose stated vertices `(A, B, C)` are not
connected by its edges (`h2` starts at `A2`, not `A`) still has two
individually valid paths, so `check_triangle_commutes` reaches the cache
lookup and raises `TypeError` instead of returning a failed proof. -/
theorem shape_mismatch_counterexample :
    Util.checkTriangleCommutes catEx triMis = .error "unhashable type: Path" :=
  Util.checkTriangle_error_of_valid catEx triMis (by decide) (by decide)

/-- C6 amended: mismatches that make a path fail validation — a broken
composition chain or a morphism not in the category — are reported, for
triangles and for squares alike, as a failed proof (`is_valid = False` with
`failure_reason` set), without an exception; but the stated vertex objects
are never consulted, and a mismatched shape (triangle or square) whose two
paths are each individually valid instead raises `TypeError` from the
unhashable-`Path` cache key. -/
theorem shape_mismatch_failed :
    (∀ (C : Util.Category) (v : Util.Object × Util.Object × Util.Object)
      (f g h : Util.Morphism) (nm : String),
        f.target ≠ g.source ∨ f ∉ C.morphisms ∨ g ∉ C.morphisms ∨
          h ∉ C.morphisms →
        ∃ p : Util.CommutativityProof,
          Util.checkTriangleCommutes C ⟨v, (f, g, h), nm⟩ = .ok p ∧
            p.is_valid = false ∧ p.failure_reason.isSome = true) ∧
    (∀ (C : Util.Category)
      (w : Util.Object × Util.Object × Util.Object × Util.Object)
      (top right left bottom : Util.Morphism) (nm : String),
        top.target ≠ right.source ∨ left.target ≠ bottom.source ∨
          top ∉ C.morphisms ∨ right ∉ C.morphisms ∨ left ∉ C.morphisms ∨
          bottom ∉ C.morphisms →
        ∃ p : Util.CommutativityProof,
          Util.checkSquareCommutes C ⟨w, (top, right, left, bottom), nm⟩ = .ok p ∧
            p.is_valid = false ∧ p.failure_reason.isSome = true) ∧
    (∀ (C : Util.Category) (v : Util.Object × Util.Object × Util.Object)
      (f g h : Util.Morphism) (nm : String),
        Util.validate C [f, g] = .VALID → Util.validate C [h] = .VALID →
        Util.checkTriangleCommutes C ⟨v, (f, g, h), nm⟩ =
          .error "unhashable type: Path") ∧
    (∀ (C : Util.Category)
      (w : Util.Object × Util.Object × Util.Object × Util.Object)
      (top right left bottom : Util.Morphism) (nm : String),
        Util.validate C [top, right] = .VALID →
        Util.validate C [left, bottom] = .VALID →
        Util.checkSquareCommutes C ⟨w, (top, right, left, bottom), nm⟩ =
          .error "unhashable type: Path") := by
  refine ⟨?_, ?_, ?_, ?_⟩
  · intro C v f g h nm hmis
    refine Util.checkTriangle_invalid C ⟨v, (f, g, h), nm⟩ ?_
    rcases hmis with hm | hm | hm | hm
    · exact Or.inl (Util.validate_pair_ne C f g hm)
    · exact Or.inl (Util.validate_not_mem_ne C [f, g] f (by simp) hm)
    · exact Or.inl (Util.validate_not_mem_ne C [f, g] g (by simp) hm)
    · exact Or.inr (Util.validate_not_mem_ne C [h] h (by simp) hm)
  · intro C w top right left bottom nm hmis
    refine Util.checkSquare_invalid C ⟨w, (top, right, left, bottom), nm⟩ ?_
    rcases hmis with hm | hm | hm | hm | hm | hm
    · exact Or.inl (Util.validate_pair_ne C top right hm)
    · exact Or.inr (Util.validate_pair_ne C left bottom hm)
    · exact Or.inl (Util.validate_not_mem_ne C [top, right] top (by simp) hm)
    · exact Or.inl (Util.validate_not_mem_ne C [top, right] right (by simp) hm)
    · exact Or.inr (Util.validate_not_mem_ne C [left, bottom] left (by simp) hm)
    · exact Or.inr (Util.validate_not_mem_ne C [left, bottom] bottom (by simp) hm)
  · intro C v f g h nm h1 h2
    exact Util.checkTriangle_error_of_valid C ⟨v, (f, g, h), nm⟩ h1 h2
  · intro C w top right left bottom nm h1 h2
    exact Util.checkSquare_error_of_valid C ⟨w, (top, right, left, bottom), nm⟩ h1 h2

theorem shape_mismatch_failed_witness :
    ((mg.target ≠ mf.source ∨ mg ∉ catEx.morphisms ∨ mf ∉ catEx.morphisms ∨
        mh ∉ catEx.morphisms) ∧
      ∃ p : Util.CommutativityProof,
        Util.checkTriangleCommutes catEx ⟨(objA, objB, objC), (mg, mf, mh), "t2"⟩ =
            .ok p ∧
          p.is_valid = false ∧ p.failure_reason.isSome = true) ∧
    ((mf.target ≠ mg.source ∨ mf ∉ catEx.morphisms ∨ mg ∉ catEx.morphisms ∨
        mhX ∉ catEx.morphisms) ∧
      ∃ p : Util.CommutativityProof,
        Util.checkTriangleCommutes catEx ⟨(objA, objB, objC), (mf, mg, mhX), "t3"⟩ =
            .ok p ∧
          p.is_valid = false ∧ p.failure_reason.isSome = true) ∧
    ((mg.target ≠ mg.source ∨ mf.target ≠ mf.source ∨ mg ∉ catEx.morphisms ∨
        mg ∉ catEx.morphisms ∨ mf ∉ catEx.morphisms ∨ mf ∉ catEx.morphisms) ∧
      ∃ p : Util.CommutativityProof,
        Util.checkSquareCommutes catEx
            ⟨(objA, objB, objC, objA2), (mg, mg, mf, mf), "sq"⟩ = .ok p ∧
          p.is_valid = false ∧ p.failure_reason.isSome = true) ∧
    (Util.validate catEx [mf, mg] = .VALID ∧ Util.validate catEx [mh2] = .VALID ∧
      Util.checkTriangleCommutes catEx triMis = .error "unhashable type: Path") ∧
    (Util.validate catEx [mf, mg] = .VALID ∧
      Util.checkSquareCommutes catEx
          ⟨(objA, objB, objA, objC), (mf, mg, mf, mg), "sq2"⟩ =
        .error "unhashable type: Path") :=
  ⟨⟨Or.inl (by decide),
      shape_mismatch_failed.1 catEx (objA, objB, objC) mg mf mh "t2"
        (Or.inl (by decide))⟩,
    ⟨Or.inr (Or.inr (Or.inr (by decide))),
      shape_mismatch_failed.1 catEx (objA, objB, objC) mf mg mhX "t3"
        (Or.inr (Or.inr (Or.inr (by decide))))⟩,
    ⟨Or.inl (by decide),
      shape_mismatch_failed.2.1 catEx (objA, objB, objC, objA2) mg mg mf mf "sq"
        (Or.inl (by decide))⟩,
    ⟨by decide, by decide,
      shape_mismatch_failed.2.2.1 catEx (objA, objB, objC) mf mg mh2 "tri_mis"
        (by decide) (by decide)⟩,
    ⟨by decide,
      shape_mismatch_failed.2.2.2 catEx (objA, objB, objA, objC) mf mg mf mg "sq2"
        (by decide) (by decide)⟩⟩

/-- C7 counterexample: `add_relation` accepts and stores a relation with an
empty `lhs` (only the dimension is checked), so nothing like
`MalformedRelation` exists at registration time. -/
theorem add_relation_counterexample :
    (NCat.addRelation fw0 rEmptyLhs).map (fun x => (x.1.relations 1, x.2)) =
      some ([rEmptyLhs], 0) := by
  decide

/-- C7 amended: `add_relation` validates only the dimension bound
`1 ≤ dim ≤ n` (an `AssertionError`, embedded as `none`, otherwise); any
relation with an in-bounds dimension — empty-sided or not — is appended to
that dimension's list (registration order) and its index returned, while
other dimensions are untouched.  Empty sides are instead skipped at matching
time: an empty pattern generates no substitutions. -/
theorem add_relation_spec (c : NCat.FiniteWeakNCategory) (r : NCat.Relation) :
    (1 ≤ r.dim ∧ r.dim ≤ c.n →
      (NCat.addRelation c r).map (fun x => (x.1.relations r.dim, x.2)) =
        some (c.relations r.dim ++ [r], (c.relations r.dim).length) ∧
      ∀ c2 i, NCat.addRelation c r = some (c2, i) →
        ∀ d, d ≠ r.dim → c2.relations d = c.relations d) ∧
    (¬(1 ≤ r.dim ∧ r.dim ≤ c.n) → NCat.addRelation c r = none) ∧
    (∀ (path rep : List Int) (nm dir : String),
      Rewrite.subsOne path ([] : List Int) rep nm dir = []) := by
  refine ⟨?_, ?_, ?_⟩
  · intro hdim
    constructor
    · simp [NCat.addRelation, hdim]
    · intro c2 i hadd d hd
      simp only [NCat.addRelation, if_pos hdim] at hadd
      have hc2 : ({ c with relations := fun d =>
          if d = r.dim then c.relations d ++ [r] else c.relations d } :
            NCat.FiniteWeakNCategory) = c2 :=
        congrArg Prod.fst (Option.some.inj hadd)
      rw [← hc2]
      simp [hd]
  · intro hdim
    simp [NCat.addRelation, hdim]
  · intro path rep nm dir
    unfold Rewrite.subsOne
    rw [if_pos (Or.inl List.length_nil)]

theorem add_relation_spec_witness :
    (1 ≤ rGood.dim ∧ rGood.dim ≤ fw0.n) ∧
    (NCat.addRelation fw0 rGood).map (fun x => (x.1.relations rGood.dim, x.2)) =
      some (fw0.relations rGood.dim ++ [rGood], (fw0.relations rGood.dim).length) :=
  ⟨⟨by decide, by decide⟩, ((add_relation_spec fw0 rGood).1 ⟨by decide, by decide⟩).1⟩

/-- C10: `certificate` returns a bare step list with no boolean verdict: it
is exactly the second component of the generic engine's run on that
dimension's relations, it is `[]` on equal endpoints, and it is `[]` whenever
the search verdict is `false` (budget or frontier exhausted), so reflexive
success and search failure are indistinguishable from the return value — as
the concrete category `fwEx` shows on `[0] = [0]` versus the unreachable
`[0] →? [1]`. -/
theorem certificate_no_verdict :
    (∀ (c : NCat.FiniteWeakNCategory) (dim : Nat) (p : List Int) (budget : Nat),
      NCat.certificate c dim p p budget = []) ∧
    (∀ (c : NCat.FiniteWeakNCategory) (dim : Nat) (lhs rhs : List Int) (budget : Nat),
      NCat.certificate c dim lhs rhs budget = (NCat.ncheck c dim lhs rhs budget).2) ∧
    (∀ (c : NCat.FiniteWeakNCategory) (dim : Nat) (lhs rhs : List Int) (budget : Nat),
      (NCat.ncheck c dim lhs rhs budget).1 = false →
        NCat.certificate c dim lhs rhs budget = []) ∧
    (NCat.certificate fwEx 1 [0] [0] 4 = [] ∧
      (NCat.ncheck fwEx 1 [0] [1] 4).1 = false ∧
      NCat.certificate fwEx 1 [0] [1] 4 = []) := by
  have hsnd : ∀ (c : NCat.FiniteWeakNCategory) (dim : Nat) (lhs rhs : List Int)
      (budget : Nat),
      NCat.certificate c dim lhs rhs budget = (NCat.ncheck c dim lhs rhs budget).2 := by
    intro c dim l r b
    unfold NCat.certificate NCat.ncheck Rewrite.check
    by_cases h : l = r <;> simp [h]
  refine ⟨?_, hsnd, ?_, by decide, by decide, by decide⟩
  · intro c dim p b
    simp [NCat.certificate]
  · intro c dim l r b hf
    unfold NCat.ncheck Rewrite.check at hf
    rw [hsnd]
    unfold NCat.ncheck Rewrite.check
    by_cases h : l = r
    · rw [if_pos h] at hf
      simp at hf
    · rw [if_neg h] at hf ⊢
      exact Rewrite.bfs_false_nil b [(l, [])] [l] hf

theorem certificate_no_verdict_witness :
    (NCat.ncheck fwEx 1 [0] [1] 4).1 = false ∧
      NCat.certificate fwEx 1 [0] [1] 4 = [] :=
  ⟨by decide, certificate_no_verdict.2.2.1 fwEx 1 [0] [1] 4 (by decide)⟩
